import Mathlib

/-!
Shallow embedding of the Epub-reader backend (src-tauri) and proofs about it.

Text is modelled as `List Char`; Rust `String::len` (UTF-8 byte count) is
modelled by `byteLen`.  Each definition mirrors the Rust function named in
its doc comment.
-/

set_option maxHeartbeats 1000000

/-- Rust `char::is_whitespace` (the Unicode White_Space property). -/
def isRustWs (c : Char) : Bool :=
  let n := c.toNat
  (0x9 ≤ n && n ≤ 0xD) || n == 0x20 || n == 0x85 || n == 0xA0 || n == 0x1680 ||
  (0x2000 ≤ n && n ≤ 0x200A) || n == 0x2028 || n == 0x2029 || n == 0x202F ||
  n == 0x205F || n == 0x3000

/-- Number of bytes of the UTF-8 encoding of a scalar value, as in Rust. -/
def utf8Size (c : Char) : Nat :=
  if c.toNat < 0x80 then 1
  else if c.toNat < 0x800 then 2
  else if c.toNat < 0x10000 then 3
  else 4

/-- Rust `String::len`: byte length of the UTF-8 encoding. -/
def byteLen (l : List Char) : Nat := (l.map utf8Size).sum

/-- Helper of `words`: accumulates the current token (reversed) while
scanning, mirroring Rust `str::split_whitespace` (no empty tokens). -/
def wordsAux : List Char → List Char → List (List Char)
  | [], acc => if acc = [] then [] else [acc.reverse]
  | c :: cs, acc =>
    if isRustWs c then
      if acc = [] then wordsAux cs [] else acc.reverse :: wordsAux cs []
    else wordsAux cs (c :: acc)

/-- Rust `str::split_whitespace` collected to a list of tokens. -/
def words (l : List Char) : List (List Char) := wordsAux l []

/-- Rust `Vec::join(" ")`: interleave a single space between tokens. -/
def joinSpace : List (List Char) → List Char
  | [] => []
  | [w] => w
  | w :: ws => w ++ ' ' :: joinSpace ws

/-- Character scan of `strip_html_tags` (epub_parser.rs lines 115-127):
`'<'` sets the in-tag flag, `'>'` clears it, other characters are kept
exactly when the flag is clear. -/
def stripAux (inTag : Bool) : List Char → List Char
  | [] => []
  | c :: cs =>
    if c = '<' then stripAux true cs
    else if c = '>' then stripAux false cs
    else if inTag then stripAux inTag cs
    else c :: stripAux inTag cs

/-- Rust `strip_html_tags` (epub_parser.rs lines 115-130): scan removing
tag regions, then split on whitespace and rejoin with single spaces. -/
def strip_html_tags (l : List Char) : List Char :=
  joinSpace (words (stripAux false l))

/-- Rust `str::trim`: drop Unicode whitespace from both ends. -/
def trimChars (l : List Char) : List Char :=
  ((l.dropWhile isRustWs).reverse.dropWhile isRustWs).reverse

/-- Modelled from the spec (claim C2 wording): the characters of the input
that lie outside a tag region, a tag region being the span from a `'<'` to
the next `'>'` inclusive.  A `'>'` with no preceding unmatched `'<'` is
outside every tag region and is kept. -/
def specTagFree (inTag : Bool) : List Char → List Char
  | [] => []
  | c :: cs =>
    if inTag then
      if c = '>' then specTagFree false cs else specTagFree true cs
    else
      if c = '<' then specTagFree true cs else c :: specTagFree false cs

/-- Rust `str::find` with a string pattern: index of the first occurrence
of `pat` as a contiguous subsequence, if any. -/
def findSub (pat : List Char) : List Char → Option Nat
  | [] => if pat = [] then some 0 else none
  | c :: cs =>
    if pat.isPrefixOf (c :: cs) then some 0
    else (findSub pat cs).map (· + 1)

/-- Rust `str::find` with a char pattern. -/
def findChar (t : Char) : List Char → Option Nat
  | [] => none
  | c :: cs => if c = t then some 0 else (findChar t cs).map (· + 1)

example : strip_html_tags "<p>Hello <b>World</b></p>".toList = "Hello World".toList := by decide
example : strip_html_tags "a>b".toList = "ab".toList := by decide
example : words "  foo  bar ".toList = ["foo".toList, "bar".toList] := by decide
example : findSub "</h1>".toList "ab</h1>c".toList = some 2 := by decide

/-- Characters that survive whitespace collapsing: the non-whitespace ones. -/
def nonWsB (c : Char) : Bool := !(isRustWs c)

/-- One branch of `extract_chapter_title` (epub_parser.rs lines 68-86): find
the opening pattern, then the next `'>'` after it, then the closing pattern,
and return the stripped and trimmed slice in between; the h1 block and the
h2 block of the Rust function are this procedure at the two pattern pairs. -/
def tryHeading (openPat closePat : List Char) (html : List Char) : Option (List Char) :=
  match findSub openPat html with
  | none => none
  | some titleStart =>
    match findChar '>' (html.drop titleStart) with
    | none => none
    | some contentStart =>
      let startPos := titleStart + contentStart + 1
      match findSub closePat (html.drop startPos) with
      | none => none
      | some endPos =>
        some (trimChars (strip_html_tags ((html.drop startPos).take endPos)))

/-- Rust `extract_chapter_title` (epub_parser.rs lines 66-90): first complete
h1 heading, else first complete h2 heading, else the synthesized
"Chapter n" with `n` the 1-based chapter number. -/
def extract_chapter_title (html : List Char) (chapterNumber : Nat) : List Char :=
  match tryHeading "<h1".toList "</h1>".toList html with
  | some t => t
  | none =>
    match tryHeading "<h2".toList "</h2>".toList html with
    | some t => t
    | none => "Chapter ".toList ++ (Nat.repr chapterNumber).toList

/-- Rust struct `Chapter` (main.rs lines 50-56). -/
structure Chapter where
  id : List Char
  title : List Char
  start_position : Nat
  end_position : Nat
deriving DecidableEq

/-- Rust struct `Document` (main.rs lines 58-70). -/
structure Document where
  id : List Char
  title : List Char
  author : Option (List Char)
  file_path : List Char
  file_type : List Char
  content : List Char
  current_position : Nat
  total_pages : Nat
  chapters : List Chapter
deriving DecidableEq

/-- Spine walk of `parse_epub` (epub_parser.rs lines 20-43).  `res` models
`doc.get_resource_str` (None = resolution failure, entry skipped), `getCur`
models `doc.get_current_id()` at each loop iteration.  The accumulators are
the `content` string and the `chapters` vector. -/
def epubLoop (res : List Char → Option (List Char)) (getCur : Nat → Option (List Char)) :
    List (List Char) → Nat → List Char → List Chapter → List Char × List Chapter
  | [], _, content, chapters => (content, chapters)
  | idref :: rest, index, content, chapters =>
    match res idref with
    | none => epubLoop res getCur rest (index + 1) content chapters
    | some chapterContent =>
      let startPosition := byteLen content
      let textContent := strip_html_tags chapterContent
      let content2 := content ++ textContent ++ "\n\n".toList
      let endPosition := byteLen content2
      let chapterTitle := extract_chapter_title chapterContent (index + 1)
      let ch : Chapter :=
        { id := ((getCur index).getD idref) ++ "_".toList ++ (Nat.repr index).toList
          title := chapterTitle
          start_position := startPosition
          end_position := endPosition }
      epubLoop res getCur rest (index + 1) content2 (chapters ++ [ch])

/-- Rust `parse_epub` (epub_parser.rs lines 8-64).  The EPUB container
accesses (`mdata`, spine, resource resolution, current id, cover bytes) and
the generated UUID are oracles; the cover image is passed through already
encoded since its extraction touches no claimed property. -/
def parse_epub (mtitle mauthor : Option (List Char)) (uuid path : List Char)
    (getCur : Nat → Option (List Char)) (res : List Char → Option (List Char))
    (spine : List (List Char)) : Document :=
  let title := mtitle.getD "Unknown Title".toList
  let built := epubLoop res getCur spine 0 [] []
  let wordCount := (words built.1).length
  let estimatedPages := Nat.max (wordCount / 500) 1
  { id := uuid
    title := title
    author := mauthor
    file_path := path
    file_type := "epub".toList
    content := built.1
    current_position := 0
    total_pages := estimatedPages
    chapters := built.2 }

/-- Rust `parse_txt` (txt_parser.rs lines 6-36) on a successfully read file:
`fileContent` is the text read from disk, `stem` models
`file_path.file_stem().and_then(to_str)`, `uuid` the generated id. -/
def parse_txt (fileContent : List Char) (stem : Option (List Char))
    (uuid path : List Char) : Document :=
  let title := stem.getD "Unknown Title".toList
  let wordCount := (words fileContent).length
  let estimatedPages := Nat.max (wordCount / 500) 1
  { id := uuid
    title := title
    author := none
    file_path := path
    file_type := "txt".toList
    content := fileContent
    current_position := 0
    total_pages := estimatedPages
    chapters := [] }

/-- Index of the last occurrence of `'.'` in a file name, if any. -/
def lastDotIdx (l : List Char) : Option Nat :=
  match findChar '.' l.reverse with
  | none => none
  | some j => some (l.length - 1 - j)

/-- Rust `Path::file_name`: the part after the last `'/'`. -/
def fileNameOf (p : List Char) : List Char :=
  (p.reverse.takeWhile (fun c => !(c == '/'))).reverse

/-- Rust `Path::extension`: split the file name at its last `'.'`; no dot,
a dot only at position 0, or the literal name ".." give no extension. -/
def rustExtension (p : List Char) : Option (List Char) :=
  let n := fileNameOf p
  if n = "..".toList then none
  else
    match lastDotIdx n with
    | none => none
    | some 0 => none
    | some i => some (n.drop (i + 1))

/-- ASCII lowercasing, the effect of Rust `str::to_lowercase` on the
extension strings compared by the dispatcher. -/
def asciiLower (l : List Char) : List Char := l.map Char.toLower

/-- The three format parsers the dispatcher can route to. -/
inductive ParserKind where
  | epub
  | pdf
  | txt
deriving DecidableEq

/-- Extension routing of `open_document` (main.rs lines 81-93), shared
verbatim by `get_document_content`, `search_in_document` and `get_chapters`:
a missing extension is the "Invalid file extension" error, an extension
whose lowercasing is not epub/pdf/txt is the "Unsupported file format"
error, and otherwise the matching parser is invoked. -/
def dispatch (p : List Char) : Except (List Char) ParserKind :=
  match rustExtension p with
  | none => .error "Invalid file extension".toList
  | some ext =>
    if asciiLower ext = "epub".toList then .ok .epub
    else if asciiLower ext = "pdf".toList then .ok .pdf
    else if asciiLower ext = "txt".toList then .ok .txt
    else .error ("Unsupported file format: ".toList ++ ext)

example : dispatch "book.EPUB".toList = .ok .epub := by rfl
example : rustExtension "notes".toList = none := by decide
example : extract_chapter_title "<h1>Intro</h1>".toList 1 = "Intro".toList := by decide
example : extract_chapter_title "plain text".toList 3 = "Chapter 3".toList := by decide

/-- Lookup in an association list; models `HashMap::get`, with the list
order standing for the map's iteration order. -/
def assocGet : List (List Char × Document) → List Char → Option Document
  | [], _ => none
  | e :: rest, key => if e.1 = key then some e.2 else assocGet rest key

/-- `HashMap::insert`: replace the value in place when the key is present,
otherwise add a fresh entry (placed last in iteration order). -/
def hmInsert (c : List (List Char × Document)) (k : List Char) (v : Document) :
    List (List Char × Document) :=
  match assocGet c k with
  | some _ => c.map (fun e => if e.1 = k then (k, v) else e)
  | none => c ++ [(k, v)]

/-- Rust `DocumentCache::get` (main.rs lines 30-32). -/
def cacheGet (c : List (List Char × Document)) (k : List Char) : Option Document :=
  assocGet c k

/-- Rust `DocumentCache::set` (main.rs lines 34-43): when the map already
holds 5 or more entries, remove the entry whose key `cache.keys().next()`
yields (the first in iteration order), then insert. -/
def cacheSet (c : List (List Char × Document)) (k : List Char) (v : Document) :
    List (List Char × Document) :=
  let c1 := if 5 ≤ c.length then c.tail else c
  hmInsert c1 k v

/-- Run a sequence of `DocumentCache::set` operations from a starting
cache state. -/
def runSets (c : List (List Char × Document)) (ops : List (List Char × Document)) :
    List (List Char × Document) :=
  ops.foldl (fun acc op => cacheSet acc op.1 op.2) c

/-- The value most recently `set` for a key in a sequence of operations. -/
def lastSet (ops : List (List Char × Document)) (k : List Char) : Option Document :=
  assocGet ops.reverse k

/-- Rust `usize as i32`: truncate to 32 bits, reinterpret as two's
complement signed. -/
def asI32 (n : Nat) : Int :=
  if n % 2 ^ 32 < 2 ^ 31 then (n % 2 ^ 32 : Nat)
  else ((n % 2 ^ 32 : Nat) : Int) - 2 ^ 32

/-- Rust `i32 as usize` on a 64-bit target: sign-extend to 64 bits,
reinterpret as unsigned. -/
def asUsize (i : Int) : Nat := (i % 2 ^ 64).toNat

/-- One row of the `chapters` table (database/mod.rs lines 123-138);
`start_position`, `end_position` and `chapter_order` hold the `i32`
values bound by `save_chapters`. -/
structure ChapterRow where
  id : List Char
  document_id : List Char
  title : List Char
  start_position : Int
  end_position : Int
  chapter_order : Int
deriving DecidableEq

/-- The row `save_chapters` inserts for the chapter at 0-based `order`
(database/mod.rs lines 286-301), with the `as i32` casts applied. -/
def mkChapterRow (docId : List Char) (order : Nat) (ch : Chapter) : ChapterRow :=
  { id := ch.id
    document_id := docId
    title := ch.title
    start_position := asI32 ch.start_position
    end_position := asI32 ch.end_position
    chapter_order := asI32 order }

/-- Sequential `INSERT` statements with `id` as primary key: a duplicate id
makes the statement fail, aborting the loop; rows inserted before the
failure persist (no transaction). -/
def insertRows : List ChapterRow → List ChapterRow → List ChapterRow × Bool
  | t, [] => (t, true)
  | t, r :: rs =>
    if t.any (fun q => q.id = r.id) then (t, false)
    else insertRows (t ++ [r]) rs

/-- Helper of `save_chapters`: the rows for a chapter list starting at a
given 0-based order. -/
def chapterRowsFrom (docId : List Char) : Nat → List Chapter → List ChapterRow
  | _, [] => []
  | order, ch :: rest => mkChapterRow docId order ch :: chapterRowsFrom docId (order + 1) rest

/-- Rust `Database::save_chapters` (database/mod.rs lines 278-305): delete
the document's rows, then insert a row per chapter in order.  Returns the
resulting table and whether every insert succeeded. -/
def save_chapters (table : List ChapterRow) (docId : List Char) (chs : List Chapter) :
    List ChapterRow × Bool :=
  let cleared := table.filter (fun r => !(r.document_id = docId : Bool))
  insertRows cleared (chapterRowsFrom docId 0 chs)

/-- Insertion step of `ORDER BY chapter_order` (ascending). -/
def insertRowSorted (r : ChapterRow) : List ChapterRow → List ChapterRow
  | [] => [r]
  | q :: rest =>
    if r.chapter_order ≤ q.chapter_order then r :: q :: rest
    else q :: insertRowSorted r rest

/-- `ORDER BY chapter_order` as an insertion sort. -/
def sortRows : List ChapterRow → List ChapterRow
  | [] => []
  | r :: rest => insertRowSorted r (sortRows rest)

/-- Rust `Database::get_cached_chapters` (database/mod.rs lines 307-330):
select the document's rows ordered by `chapter_order`, return `none` when
there are no rows, otherwise rebuild the chapters with `as usize` casts. -/
def get_cached_chapters (table : List ChapterRow) (docId : List Char) :
    Option (List Chapter) :=
  let rows := sortRows (table.filter (fun r => (r.document_id = docId : Bool)))
  if rows = [] then none
  else
    some (rows.map (fun r =>
      { id := r.id
        title := r.title
        start_position := asUsize r.start_position
        end_position := asUsize r.end_position }))

/-- The fields of `StoredDocument` (database/mod.rs lines 7-18) that
`get_chapters` reads; the remaining metadata plays no part in any claim. -/
structure StoredDoc where
  id : List Char
  file_path : List Char
deriving DecidableEq

/-- The state `get_chapters` touches: the in-memory document cache, the
`documents` table and the `chapters` table. -/
structure AppState where
  cacheEntries : List (List Char × Document)
  dbDocuments : List StoredDoc
  dbChapters : List ChapterRow
deriving DecidableEq

/-- A concrete document value used as test data in witnesses. -/
def mkDoc (did : List Char) (chs : List Chapter) : Document :=
  { id := did
    title := "T".toList
    author := none
    file_path := "f.txt".toList
    file_type := "txt".toList
    content := []
    current_position := 0
    total_pages := 1
    chapters := chs }

/-- A concrete chapter used as test data. -/
def chA : Chapter :=
  { id := "res0_0".toList, title := "Intro".toList, start_position := 0, end_position := 7 }

/-- Rust `get_chapters` (main.rs lines 240-299).  `parse` is the underlying
format parser invoked through the extension dispatch (None = parse error);
the `Nat` in the result counts how many parses were performed.  The Rust
function never writes the in-memory cache; a failed chapter-cache write is
tolerated with the rows inserted before the failure kept (main.rs
lines 289-296). -/
def get_chapters (parse : List Char → Option Document) (st : AppState)
    (docId : List Char) : Except (List Char) (List Chapter) × AppState × Nat :=
  match cacheGet st.cacheEntries docId with
  | some cachedDoc => (.ok cachedDoc.chapters, st, 0)
  | none =>
    match get_cached_chapters st.dbChapters docId with
    | some cachedChapters => (.ok cachedChapters, st, 0)
    | none =>
      match st.dbDocuments.find? (fun d => (d.id = docId : Bool)) with
      | none => (.error "Document not found".toList, st, 0)
      | some storedDoc =>
        match dispatch storedDoc.file_path with
        | .error e => (.error e, st, 0)
        | .ok _ =>
          match parse storedDoc.file_path with
          | none => (.error "parse failed".toList, st, 1)
          | some document =>
            let st2 :=
              if document.chapters = [] then st
              else
                { st with
                  dbChapters := (save_chapters st.dbChapters docId document.chapters).1 }
            (.ok document.chapters, st2, 1)

/-- Concrete resource oracle for tests: two resolving spine entries around
one that fails to resolve. -/
def res1 : List Char → Option (List Char) := fun idref =>
  if idref = "c0".toList then some "<h1>One</h1><p>Hello world</p>".toList
  else if idref = "c2".toList then some "Tail text".toList
  else none

/-- Concrete spine for tests; "c1" does not resolve and is skipped. -/
def spine1 : List (List Char) := ["c0".toList, "c1".toList, "c2".toList]

/-- A text of exactly 1000 whitespace-delimited words. -/
def content1000 : List Char := joinSpace (List.replicate 1000 ['a'])

/-- A text of exactly 10 whitespace-delimited words. -/
def content10 : List Char := joinSpace (List.replicate 10 ['a'])

/-- Concrete document test value cached under id "x". -/
def dX : Document := mkDoc "x".toList []

/-- A concrete full cache of 5 entries whose first iteration-order key "a"
differs from the cached key "x" at the second position. -/
def cache5 : List (List Char × Document) :=
  [("a".toList, mkDoc "a".toList []), ("x".toList, mkDoc "x".toList []),
   ("b".toList, mkDoc "b".toList []), ("c".toList, mkDoc "c".toList []),
   ("d".toList, mkDoc "d".toList [])]

/-- Six set operations with pairwise distinct document ids. -/
def ops6 : List (List Char × Document) :=
  [("k1".toList, mkDoc "k1".toList []), ("k2".toList, mkDoc "k2".toList []),
   ("k3".toList, mkDoc "k3".toList []), ("k4".toList, mkDoc "k4".toList []),
   ("k5".toList, mkDoc "k5".toList []), ("k6".toList, mkDoc "k6".toList [])]

/-- A chapter whose positions exceed the 32-bit signed range. -/
def chBig : Chapter :=
  { id := "big_0".toList, title := "Big".toList,
    start_position := 2 ^ 31, end_position := 2 ^ 31 }

/-- Concrete parsed document for the `get_chapters` scenarios. -/
def doc1 : Document :=
  { id := "d1uuid".toList
    title := "B".toList
    author := none
    file_path := "b.epub".toList
    file_type := "epub".toList
    content := "Hello".toList
    current_position := 0
    total_pages := 1
    chapters := [chA] }

/-- Library row for the document with id "d1" stored at path "b.epub". -/
def sd1 : StoredDoc := { id := "d1".toList, file_path := "b.epub".toList }

/-- Parse oracle resolving exactly the path "b.epub" to `doc1`. -/
def parse1 : List Char → Option Document := fun p =>
  if p = "b.epub".toList then some doc1 else none

/-- State with "d1" in the library but absent from both cache tiers. -/
def st1 : AppState := { cacheEntries := [], dbDocuments := [sd1], dbChapters := [] }

/-- State with "d1" present in the in-memory document cache. -/
def stWarm : AppState :=
  { cacheEntries := [("d1".toList, doc1)], dbDocuments := [sd1], dbChapters := [] }

/-! ## Tokenization lemmas: `words` and `joinSpace` -/

theorem join_wordsAux (l : List Char) :
    ∀ acc, (wordsAux l acc).flatten = acc.reverse ++ l.filter nonWsB := by
  induction l with
  | nil =>
    intro acc
    by_cases h : acc = [] <;> simp [wordsAux, h]
  | cons c cs ih =>
    intro acc
    by_cases hw : isRustWs c
    · by_cases h : acc = [] <;>
        simp [wordsAux, hw, h, ih, nonWsB, List.filter_cons]
    · simp [wordsAux, hw, ih, nonWsB, List.filter_cons]

theorem nonWsB_eq_true {c : Char} (h : isRustWs c = false) : nonWsB c = true := by
  simp [nonWsB, h]

theorem filter_joinSpace (ws : List (List Char))
    (h : ∀ w ∈ ws, ∀ c ∈ w, isRustWs c = false) :
    (joinSpace ws).filter nonWsB = ws.flatten := by
  induction ws with
  | nil => rfl
  | cons w tail ih =>
    cases tail with
    | nil =>
      simp only [joinSpace, List.flatten_cons, List.flatten_nil]
      rw [List.filter_eq_self.mpr]
      · simp
      · intro c hc
        exact nonWsB_eq_true (h w (by simp) c hc)
    | cons w2 tail2 =>
      have hspace : nonWsB ' ' = false := by decide
      simp only [joinSpace, List.flatten_cons, List.filter_append, List.filter_cons, hspace]
      rw [List.filter_eq_self.mpr]
      · rw [ih]
        · simp
        · intro u hu c hc
          exact h u (by simp [hu]) c hc
      · intro c hc
        exact nonWsB_eq_true (h w (by simp) c hc)

theorem mem_wordsAux (l : List Char) :
    ∀ acc, (∀ c ∈ acc, isRustWs c = false) →
      ∀ w ∈ wordsAux l acc, w ≠ [] ∧ ∀ c ∈ w, isRustWs c = false := by
  induction l with
  | nil =>
    intro acc hacc w hw
    by_cases h : acc = []
    · simp [wordsAux, h] at hw
    · simp [wordsAux, h] at hw
      subst hw
      constructor
      · simpa using h
      · intro c hc
        exact hacc c (by simpa using hc)
  | cons c cs ih =>
    intro acc hacc w hw
    by_cases hws : isRustWs c
    · by_cases h : acc = []
      · simp [wordsAux, hws, h] at hw
        exact ih [] (by simp) w hw
      · simp [wordsAux, hws, h] at hw
        rcases hw with hw | hw
        · subst hw
          constructor
          · simpa using h
          · intro d hd
            exact hacc d (by simpa using hd)
        · exact ih [] (by simp) w hw
    · simp [wordsAux, hws] at hw
      refine ih (c :: acc) ?_ w hw
      intro d hd
      rcases List.mem_cons.mp hd with hd | hd
      · subst hd
        simpa using hws
      · exact hacc d hd

theorem mem_words (l : List Char) :
    ∀ w ∈ words l, w ≠ [] ∧ ∀ c ∈ w, isRustWs c = false :=
  mem_wordsAux l [] (by simp)

theorem wordsAux_append_nonws (w : List Char) (hw : ∀ c ∈ w, isRustWs c = false) :
    ∀ l acc, wordsAux (w ++ l) acc = wordsAux l (w.reverse ++ acc) := by
  induction w with
  | nil => intro l acc; simp
  | cons c cs ih =>
    intro l acc
    have hc : isRustWs c = false := hw c (by simp)
    show wordsAux (c :: (cs ++ l)) acc = wordsAux l ((c :: cs).reverse ++ acc)
    rw [show wordsAux (c :: (cs ++ l)) acc = wordsAux (cs ++ l) (c :: acc) from by
      simp [wordsAux, hc]]
    rw [ih (fun d hd => hw d (by simp [hd])) l (c :: acc)]
    simp

theorem words_joinSpace (ws : List (List Char))
    (h : ∀ w ∈ ws, w ≠ [] ∧ ∀ c ∈ w, isRustWs c = false) :
    words (joinSpace ws) = ws := by
  induction ws with
  | nil => rfl
  | cons w tail ih =>
    have hw := h w (by simp)
    cases tail with
    | nil =>
      show wordsAux (joinSpace [w]) [] = [w]
      have : joinSpace [w] = w ++ [] := by simp [joinSpace]
      rw [this, wordsAux_append_nonws w hw.2]
      have hne : ¬(w = []) := hw.1
      simp [wordsAux, hne]
    | cons w2 tail2 =>
      show wordsAux (joinSpace (w :: w2 :: tail2)) [] = w :: w2 :: tail2
      have hj : joinSpace (w :: w2 :: tail2) = w ++ (' ' :: joinSpace (w2 :: tail2)) := rfl
      rw [hj, wordsAux_append_nonws w hw.2, List.append_nil]
      have hsp : isRustWs ' ' = true := by decide
      have hne : ¬(w.reverse = []) := by simpa using hw.1
      have hstep : wordsAux (' ' :: joinSpace (w2 :: tail2)) w.reverse =
          w.reverse.reverse :: wordsAux (joinSpace (w2 :: tail2)) [] := by
        simp [wordsAux, hsp, hne]
      rw [hstep, List.reverse_reverse]
      exact congrArg (fun t => w :: t) (ih (fun u hu => h u (by simp [hu])))

/-! ## Stripper lemmas -/

theorem mem_of_mem_wordsAux (l : List Char) :
    ∀ acc w c, w ∈ wordsAux l acc → c ∈ w → c ∈ l ∨ c ∈ acc := by
  induction l with
  | nil =>
    intro acc w c hw hc
    by_cases h : acc = []
    · simp [wordsAux, h] at hw
    · simp [wordsAux, h] at hw
      subst hw
      right
      simpa using hc
  | cons d cs ih =>
    intro acc w c hw hc
    by_cases hws : isRustWs d
    · by_cases h : acc = []
      · simp [wordsAux, hws, h] at hw
        rcases ih [] w c hw hc with h1 | h1
        · exact Or.inl (by simp [h1])
        · simp at h1
      · simp [wordsAux, hws, h] at hw
        rcases hw with hw | hw
        · subst hw
          right
          simpa using hc
        · rcases ih [] w c hw hc with h1 | h1
          · exact Or.inl (by simp [h1])
          · simp at h1
    · simp [wordsAux, hws] at hw
      rcases ih (d :: acc) w c hw hc with h1 | h1
      · exact Or.inl (by simp [h1])
      · rcases List.mem_cons.mp h1 with h2 | h2
        · exact Or.inl (by simp [h2])
        · exact Or.inr h2

theorem mem_joinSpace (ws : List (List Char)) (c : Char) :
    c ∈ joinSpace ws → c = ' ' ∨ ∃ w ∈ ws, c ∈ w := by
  induction ws with
  | nil => intro hc; simp [joinSpace] at hc
  | cons w tail ih =>
    intro hc
    cases tail with
    | nil => exact Or.inr ⟨w, by simp, by simpa [joinSpace] using hc⟩
    | cons w2 t2 =>
      have hc2 : c ∈ w ++ ' ' :: joinSpace (w2 :: t2) := hc
      rcases List.mem_append.mp hc2 with h | h
      · exact Or.inr ⟨w, by simp, h⟩
      · rcases List.mem_cons.mp h with h | h
        · exact Or.inl h
        · rcases ih h with h1 | ⟨u, hu, hcu⟩
          · exact Or.inl h1
          · exact Or.inr ⟨u, by simp [hu], hcu⟩

theorem stripAux_no_tags (l : List Char) :
    ∀ b, '<' ∉ stripAux b l ∧ '>' ∉ stripAux b l := by
  induction l with
  | nil => intro b; simp [stripAux]
  | cons c cs ih =>
    intro b
    by_cases h1 : c = '<'
    · simpa [stripAux, h1] using ih true
    by_cases h2 : c = '>'
    · simpa [stripAux, h1, h2] using ih false
    cases b with
    | true => simpa [stripAux, h1, h2] using ih true
    | false =>
      constructor
      · intro hmem
        rcases List.mem_cons.mp (by simpa [stripAux, h1, h2] using hmem) with h | h
        · exact h1 h.symm
        · exact (ih false).1 h
      · intro hmem
        rcases List.mem_cons.mp (by simpa [stripAux, h1, h2] using hmem) with h | h
        · exact h2 h.symm
        · exact (ih false).2 h

theorem stripAux_id (l : List Char) (h1 : '<' ∉ l) (h2 : '>' ∉ l) :
    stripAux false l = l := by
  induction l with
  | nil => rfl
  | cons c cs ih =>
    have hc1 : ¬(c = '<') := fun h => h1 (by simp [h])
    have hc2 : ¬(c = '>') := fun h => h2 (by simp [h])
    simp only [stripAux, hc1, hc2, if_false, Bool.false_eq_true, List.cons.injEq, true_and]
    exact ih (fun h => h1 (List.mem_cons_of_mem _ h)) (fun h => h2 (List.mem_cons_of_mem _ h))

theorem strip_no_tags (l : List Char) :
    '<' ∉ strip_html_tags l ∧ '>' ∉ strip_html_tags l := by
  constructor
  · intro hmem
    rcases mem_joinSpace _ _ hmem with h | ⟨w, hw, hcw⟩
    · exact absurd h (by decide)
    · rcases mem_of_mem_wordsAux _ [] w '<' hw hcw with h | h
      · exact (stripAux_no_tags l false).1 h
      · simp at h
  · intro hmem
    rcases mem_joinSpace _ _ hmem with h | ⟨w, hw, hcw⟩
    · exact absurd h (by decide)
    · rcases mem_of_mem_wordsAux _ [] w '>' hw hcw with h | h
      · exact (stripAux_no_tags l false).2 h
      · simp at h

theorem filter_strip (l : List Char) :
    (strip_html_tags l).filter nonWsB = (stripAux false l).filter nonWsB := by
  show (joinSpace (words (stripAux false l))).filter nonWsB = _
  rw [filter_joinSpace _ (fun w hw => (mem_words _ w hw).2)]
  simpa using join_wordsAux (stripAux false l) []

theorem stripAux_eq_specTagFree (l : List Char) :
    ∀ b, stripAux b l = (specTagFree b l).filter (fun c => !(c == '>')) := by
  induction l with
  | nil => intro b; rfl
  | cons c cs ih =>
    intro b
    cases b with
    | true =>
      by_cases h1 : c = '<'
      · simp [stripAux, specTagFree, h1, ih]
      by_cases h2 : c = '>'
      · simp [stripAux, specTagFree, h1, h2, ih]
      · simp [stripAux, specTagFree, h1, h2, ih]
    | false =>
      by_cases h1 : c = '<'
      · simp [stripAux, specTagFree, h1, ih]
      by_cases h2 : c = '>'
      · simp [stripAux, specTagFree, h1, h2, ih, List.filter_cons]
      · simp [stripAux, specTagFree, h1, h2, ih, List.filter_cons]

/-! ## Claims C2 and C5: the markup stripper -/

/-- Claim C2, as stated, is false: the scanner of `strip_html_tags` consumes
every `'>'`, so a `'>'` that lies outside every tag region (here the input
"a>b", which contains no `'<'` and hence no tag region) is a non-whitespace
character outside a tag that is dropped from the output. -/
theorem c2_counterexample :
    ¬((strip_html_tags "a>b".toList).filter nonWsB =
      (specTagFree false "a>b".toList).filter nonWsB) := by decide

/-- Claim C2 (amended): for every input, the sequence of non-whitespace
characters of the stripper's output equals the sequence of non-whitespace
characters lying outside tag regions, except that `'>'` characters outside
a tag are also dropped (consumed as tag terminators); in particular no
non-whitespace character outside a tag other than `'>'` is ever lost, and
the whitespace normalization only collapses whitespace. -/
theorem c2_outside_tag_chars_preserved (l : List Char) :
    (strip_html_tags l).filter nonWsB =
      ((specTagFree false l).filter (fun c => !(c == '>'))).filter nonWsB := by
  rw [filter_strip, stripAux_eq_specTagFree]

/-- Claim C5: the markup stripper is idempotent; stripping its own output
returns that output unchanged. -/
theorem c5_strip_html_tags_idempotent (l : List Char) :
    strip_html_tags (strip_html_tags l) = strip_html_tags l := by
  have hnt := strip_no_tags l
  have hid : stripAux false (strip_html_tags l) = strip_html_tags l :=
    stripAux_id _ hnt.1 hnt.2
  show joinSpace (words (stripAux false (strip_html_tags l))) = strip_html_tags l
  rw [hid]
  show joinSpace (words (joinSpace (words (stripAux false l)))) = _
  rw [words_joinSpace _ (mem_words _)]
  rfl

/-! ## Chapter chain invariants (claim C3) -/

/-- A chapter list is a chain from offset `a` to offset `b`: each chapter
starts where the previous one ended and never ends before it starts. -/
def chainFrom : Nat → List Chapter → Nat → Prop
  | a, [], b => a = b
  | a, ch :: rest, b =>
    ch.start_position = a ∧ a ≤ ch.end_position ∧ chainFrom ch.end_position rest b

theorem byteLen_append (x y : List Char) : byteLen (x ++ y) = byteLen x + byteLen y := by
  simp [byteLen]

theorem chainFrom_snoc {a b : Nat} {cs : List Chapter} (h : chainFrom a cs b)
    (ch : Chapter) (h1 : ch.start_position = b) (h2 : b ≤ ch.end_position) :
    chainFrom a (cs ++ [ch]) ch.end_position := by
  induction cs generalizing a with
  | nil =>
    cases h
    exact ⟨h1, h2, rfl⟩
  | cons c rest ih =>
    exact ⟨h.1, h.2.1, ih h.2.2⟩

theorem epubLoop_chain (res : List Char → Option (List Char))
    (getCur : Nat → Option (List Char)) (spine : List (List Char)) :
    ∀ index content chapters, chainFrom 0 chapters (byteLen content) →
      chainFrom 0 (epubLoop res getCur spine index content chapters).2
        (byteLen (epubLoop res getCur spine index content chapters).1) := by
  induction spine with
  | nil => intro index content chapters h; exact h
  | cons idref rest ih =>
    intro index content chapters h
    show chainFrom 0 (epubLoop res getCur (idref :: rest) index content chapters).2
      (byteLen (epubLoop res getCur (idref :: rest) index content chapters).1)
    cases hres : res idref with
    | none =>
      simpa [epubLoop, hres] using ih (index + 1) content chapters h
    | some chapterContent =>
      simp only [epubLoop, hres]
      apply ih
      refine chainFrom_snoc h _ rfl ?_
      show byteLen content ≤ byteLen (content ++ strip_html_tags chapterContent ++ "\n\n".toList)
      rw [byteLen_append, byteLen_append]
      omega

theorem chainFrom_start_le_end {a b : Nat} {cs : List Chapter} (h : chainFrom a cs b) :
    ∀ ch ∈ cs, ch.start_position ≤ ch.end_position := by
  induction cs generalizing a with
  | nil => intro ch hch; simp at hch
  | cons c rest ih =>
    intro ch hch
    rcases List.mem_cons.mp hch with hch | hch
    · subst hch
      rw [h.1]
      exact h.2.1
    · exact ih h.2.2 ch hch

theorem chainFrom_consecutive {a b : Nat} {cs : List Chapter} (h : chainFrom a cs b) :
    ∀ i : Nat, ∀ hi : i + 1 < cs.length,
      (cs.get ⟨i, Nat.lt_of_succ_lt hi⟩).end_position =
        (cs.get ⟨i + 1, hi⟩).start_position := by
  induction cs generalizing a with
  | nil => intro i hi; simp at hi
  | cons c rest ih =>
    intro i hi
    cases i with
    | zero =>
      cases rest with
      | nil => simp at hi
      | cons c2 rest2 =>
        show c.end_position = c2.start_position
        exact (h.2.2.1).symm
    | succ j =>
      exact ih h.2.2 j (Nat.lt_of_succ_lt_succ hi)

theorem chainFrom_last {a b : Nat} {cs : List Chapter} (h : chainFrom a cs b)
    (hne : cs ≠ []) : (cs.getLast hne).end_position = b := by
  induction cs generalizing a with
  | nil => exact absurd rfl hne
  | cons c rest ih =>
    cases rest with
    | nil =>
      show c.end_position = b
      exact h.2.2
    | cons c2 rest2 =>
      rw [List.getLast_cons (by simp)]
      exact ih h.2.2 (by simp)

/-- Claim C3: every chapter produced by the EPUB parser has
start_position less than or equal to end_position, consecutive chapters
satisfy end_position of one equals start_position of the next, and when at
least one chapter exists the byte length of the content equals the
end_position of the last chapter; this holds for every resolution oracle,
including ones under which some spine entries fail to resolve and are
skipped. -/
theorem c3_epub_chapter_positions (mtitle mauthor : Option (List Char))
    (uuid path : List Char) (getCur : Nat → Option (List Char))
    (res : List Char → Option (List Char)) (spine : List (List Char)) :
    (∀ ch ∈ (parse_epub mtitle mauthor uuid path getCur res spine).chapters,
      ch.start_position ≤ ch.end_position) ∧
    (∀ i : Nat, ∀ hi : i + 1 < (parse_epub mtitle mauthor uuid path getCur res spine).chapters.length,
      ((parse_epub mtitle mauthor uuid path getCur res spine).chapters.get
          ⟨i, Nat.lt_of_succ_lt hi⟩).end_position =
        ((parse_epub mtitle mauthor uuid path getCur res spine).chapters.get
          ⟨i + 1, hi⟩).start_position) ∧
    (∀ hne : (parse_epub mtitle mauthor uuid path getCur res spine).chapters ≠ [],
      ((parse_epub mtitle mauthor uuid path getCur res spine).chapters.getLast hne).end_position =
        byteLen (parse_epub mtitle mauthor uuid path getCur res spine).content) := by
  have hch : chainFrom 0 (epubLoop res getCur spine 0 [] []).2
      (byteLen (epubLoop res getCur spine 0 [] []).1) :=
    epubLoop_chain res getCur spine 0 [] [] rfl
  exact ⟨chainFrom_start_le_end hch, chainFrom_consecutive hch,
    fun hne => chainFrom_last hch hne⟩

/-- Witness for claim C3 at a concrete parse in which the spine entry "c1"
fails to resolve and is skipped: the two produced chapters are contiguous
and the last one ends at the content's byte length. -/
theorem c3_epub_chapter_positions_witness :
    ((parse_epub none none [] [] (fun _ => none) res1 spine1).chapters.get
        ⟨0, by decide⟩).end_position =
      ((parse_epub none none [] [] (fun _ => none) res1 spine1).chapters.get
        ⟨0 + 1, by decide⟩).start_position ∧
    ((parse_epub none none [] [] (fun _ => none) res1 spine1).chapters.getLast
        (by decide)).end_position =
      byteLen (parse_epub none none [] [] (fun _ => none) res1 spine1).content :=
  ⟨(c3_epub_chapter_positions none none [] [] (fun _ => none) res1 spine1).2.1 0 (by decide),
   (c3_epub_chapter_positions none none [] [] (fun _ => none) res1 spine1).2.2 (by decide)⟩

/-! ## Claim C6: total_pages heuristic -/

theorem words_replicate_single (n : Nat) :
    words (joinSpace (List.replicate n ['a'])) = List.replicate n ['a'] := by
  apply words_joinSpace
  intro w hw
  rw [List.eq_of_mem_replicate hw]
  exact ⟨by simp, by decide⟩

/-- Claim C6: for every document produced by the EPUB parser and by the TXT
parser, total_pages equals the whitespace-delimited word count of the final
content divided by 500 (floor division), with a minimum of 1; in
particular a content of exactly 1000 words yields total_pages 2 and a
content of 10 words yields total_pages 1. -/
theorem c6_total_pages_heuristic :
    (∀ mtitle mauthor uuid path getCur res spine,
      (parse_epub mtitle mauthor uuid path getCur res spine).total_pages =
        Nat.max ((words (parse_epub mtitle mauthor uuid path getCur res spine).content).length / 500) 1) ∧
    (∀ fileContent stem uuid path,
      (parse_txt fileContent stem uuid path).total_pages =
        Nat.max ((words (parse_txt fileContent stem uuid path).content).length / 500) 1) ∧
    ((words content1000).length = 1000 ∧ (parse_txt content1000 none [] []).total_pages = 2) ∧
    ((words content10).length = 10 ∧ (parse_txt content10 none [] []).total_pages = 1) := by
  have h1000 : (words content1000).length = 1000 := by
    rw [content1000, words_replicate_single, List.length_replicate]
  have h10 : (words content10).length = 10 := by
    rw [content10, words_replicate_single, List.length_replicate]
  refine ⟨fun _ _ _ _ _ _ _ => rfl, fun _ _ _ _ => rfl, ⟨h1000, ?_⟩, ⟨h10, ?_⟩⟩
  · show Nat.max ((words content1000).length / 500) 1 = 2
    rw [h1000]
    decide
  · show Nat.max ((words content10).length / 500) 1 = 1
    rw [h10]
    decide

/-! ## Claim C7: chapter title extraction -/

theorem tryHeading_none (openPat closePat html : List Char)
    (h : findSub openPat html = none) : tryHeading openPat closePat html = none := by
  simp [tryHeading, h]

theorem tryHeading_complete (x : Char) (hx : ¬x = '>') (closePat pre inner rest : List Char)
    (H1 : findSub ['<', 'h', x]
      (pre ++ ['<', 'h', x, '>'] ++ inner ++ closePat ++ rest) = some pre.length)
    (H2 : findSub closePat (inner ++ closePat ++ rest) = some inner.length) :
    tryHeading ['<', 'h', x] closePat
      (pre ++ ['<', 'h', x, '>'] ++ inner ++ closePat ++ rest) =
      some (trimChars (strip_html_tags inner)) := by
  have hdrop1 : (pre ++ ['<', 'h', x, '>'] ++ inner ++ closePat ++ rest).drop pre.length
      = ['<', 'h', x, '>'] ++ (inner ++ closePat ++ rest) := by
    rw [show pre ++ ['<', 'h', x, '>'] ++ inner ++ closePat ++ rest
        = pre ++ (['<', 'h', x, '>'] ++ (inner ++ closePat ++ rest)) from by
      simp [List.append_assoc]]
    exact List.drop_left pre _
  have hfc : findChar '>' (['<', 'h', x, '>'] ++ (inner ++ closePat ++ rest)) = some 3 := by
    show findChar '>' ('<' :: 'h' :: x :: '>' :: (inner ++ closePat ++ rest)) = some 3
    simp [findChar, hx]
  have hlen : pre.length + 3 + 1 = (pre ++ ['<', 'h', x, '>']).length := by
    simp [List.length_append]
  have hdrop2 : (pre ++ ['<', 'h', x, '>'] ++ inner ++ closePat ++ rest).drop (pre.length + 3 + 1)
      = inner ++ closePat ++ rest := by
    rw [hlen, show pre ++ ['<', 'h', x, '>'] ++ inner ++ closePat ++ rest
        = (pre ++ ['<', 'h', x, '>']) ++ (inner ++ closePat ++ rest) from by
      simp [List.append_assoc]]
    exact List.drop_left _ _
  have htake : (inner ++ closePat ++ rest).take inner.length = inner := by
    rw [show inner ++ closePat ++ rest = inner ++ (closePat ++ rest) from
      List.append_assoc inner closePat rest]
    exact List.take_left _ _
  simp only [tryHeading, H1, hdrop1, hfc, hdrop2, H2, htake]

/-- Claim C7: the chapter-title extractor returns the tag-stripped, trimmed
inner text of the first complete h1 element when one exists, otherwise of
the first complete h2 element (h1 before h2), and otherwise the synthesized
"Chapter n"; in particular the fragment containing only the h1 element
with inner text "Intro" yields "Intro" and markup with no heading tags
yields "Chapter n". -/
theorem c7_chapter_title_extraction :
    (∀ html n, findSub "<h1".toList html = none → findSub "<h2".toList html = none →
      extract_chapter_title html n = "Chapter ".toList ++ (Nat.repr n).toList) ∧
    (∀ pre inner rest : List Char, ∀ n,
      findSub "<h1".toList (pre ++ "<h1>".toList ++ inner ++ "</h1>".toList ++ rest) =
        some pre.length →
      findSub "</h1>".toList (inner ++ "</h1>".toList ++ rest) = some inner.length →
      extract_chapter_title (pre ++ "<h1>".toList ++ inner ++ "</h1>".toList ++ rest) n =
        trimChars (strip_html_tags inner)) ∧
    (∀ pre inner rest : List Char, ∀ n,
      findSub "<h1".toList (pre ++ "<h2>".toList ++ inner ++ "</h2>".toList ++ rest) = none →
      findSub "<h2".toList (pre ++ "<h2>".toList ++ inner ++ "</h2>".toList ++ rest) =
        some pre.length →
      findSub "</h2>".toList (inner ++ "</h2>".toList ++ rest) = some inner.length →
      extract_chapter_title (pre ++ "<h2>".toList ++ inner ++ "</h2>".toList ++ rest) n =
        trimChars (strip_html_tags inner)) ∧
    (∀ n, extract_chapter_title "<h1>Intro</h1>".toList n = "Intro".toList) := by
  refine ⟨?_, ?_, ?_, ?_⟩
  · intro html n h1 h2
    simp only [extract_chapter_title, tryHeading_none _ _ _ h1, tryHeading_none _ _ _ h2]
  · intro pre inner rest n H1 H2
    have ht := tryHeading_complete '1' (by decide) "</h1>".toList pre inner rest H1 H2
    simp only [extract_chapter_title]
    rw [show tryHeading "<h1".toList "</h1>".toList
        (pre ++ "<h1>".toList ++ inner ++ "</h1>".toList ++ rest) =
        some (trimChars (strip_html_tags inner)) from ht]
  · intro pre inner rest n H0 H1 H2
    have hn := tryHeading_none "<h1".toList "</h1>".toList _ H0
    have ht := tryHeading_complete '2' (by decide) "</h2>".toList pre inner rest H1 H2
    simp only [extract_chapter_title]
    rw [show tryHeading "<h1".toList "</h1>".toList
        (pre ++ "<h2>".toList ++ inner ++ "</h2>".toList ++ rest) = none from hn]
    rw [show tryHeading "<h2".toList "</h2>".toList
        (pre ++ "<h2>".toList ++ inner ++ "</h2>".toList ++ rest) =
        some (trimChars (strip_html_tags inner)) from ht]
  · intro n
    rfl

/-- Witness for claim C7 at concrete markup: a complete h1 element preceded
by plain text yields its stripped inner text, and markup without heading
tags yields the synthesized chapter name. -/
theorem c7_chapter_title_extraction_witness :
    extract_chapter_title ("x ".toList ++ "<h1>".toList ++ "My <b>Title</b>".toList ++
        "</h1>".toList ++ "<h2>Z</h2>".toList) 2 =
      trimChars (strip_html_tags "My <b>Title</b>".toList) ∧
    extract_chapter_title "no headings here".toList 7 =
      "Chapter ".toList ++ (Nat.repr 7).toList :=
  ⟨c7_chapter_title_extraction.2.1 "x ".toList "My <b>Title</b>".toList "<h2>Z</h2>".toList 2
      (by decide) (by decide),
   c7_chapter_title_extraction.1 "no headings here".toList 7 (by decide) (by decide)⟩

/-! ## Claim C8: the parser dispatcher -/

/-- Claim C8: the dispatcher routes by the lowercased file extension; the
extensions epub, pdf and txt (in any letter case) reach the corresponding
parser, and a missing or unrecognized extension produces an error without
any parser being selected; in particular "book.EPUB" routes to the EPUB
parser and "notes" (no extension) fails. -/
theorem c8_dispatcher_routing :
    (∀ p e, rustExtension p = some e →
      (asciiLower e = "epub".toList → dispatch p = .ok .epub) ∧
      (asciiLower e = "pdf".toList → dispatch p = .ok .pdf) ∧
      (asciiLower e = "txt".toList → dispatch p = .ok .txt) ∧
      (¬(asciiLower e = "epub".toList) → ¬(asciiLower e = "pdf".toList) →
        ¬(asciiLower e = "txt".toList) →
        dispatch p = .error ("Unsupported file format: ".toList ++ e))) ∧
    (∀ p, rustExtension p = none →
      dispatch p = .error "Invalid file extension".toList) ∧
    dispatch "book.EPUB".toList = .ok .epub ∧
    dispatch "notes".toList = .error "Invalid file extension".toList := by
  refine ⟨?_, ?_, by rfl, by rfl⟩
  · intro p e he
    refine ⟨fun h => ?_, fun h => ?_, fun h => ?_, fun h1 h2 h3 => ?_⟩
    · simp [dispatch, he, h]
    · simp [dispatch, he, h]
    · simp [dispatch, he, h]
    · simp only [dispatch, he]
      rw [if_neg h1, if_neg h2, if_neg h3]
  · intro p hp
    simp [dispatch, hp]

/-- Witness for claim C8: a mixed-case pdf extension routes to the PDF
parser, and an extensionless path produces the missing-extension error. -/
theorem c8_dispatcher_routing_witness :
    dispatch "a.PdF".toList = .ok .pdf ∧
    dispatch "notes".toList = .error "Invalid file extension".toList :=
  ⟨((c8_dispatcher_routing.1 "a.PdF".toList "PdF".toList (by decide)).2.1 (by decide)),
   c8_dispatcher_routing.2.1 "notes".toList (by decide)⟩

/-! ## Cache lemmas (claims C4 and C9) -/

theorem assocGet_none_forall {c : List (List Char × Document)} {k : List Char}
    (h : assocGet c k = none) : ∀ e ∈ c, ¬(e.1 = k) := by
  induction c with
  | nil => intro e he; simp at he
  | cons hd rest ih =>
    intro e he
    by_cases hk : hd.1 = k
    · simp [assocGet, hk] at h
    · rcases List.mem_cons.mp he with rfl | he2
      · exact hk
      · exact ih (by simpa [assocGet, hk] using h) e he2

theorem assocGet_tail_none {c : List (List Char × Document)} {k : List Char}
    (h : assocGet c k = none) : assocGet c.tail k = none := by
  cases c with
  | nil => exact h
  | cons hd rest =>
    by_cases hk : hd.1 = k
    · simp [assocGet, hk] at h
    · simpa [assocGet, hk] using h

theorem assocGet_append_single_ne {c : List (List Char × Document)} {k : List Char}
    (k2 : List Char) (v : Document) (h : assocGet c k = none) (hne : ¬(k2 = k)) :
    assocGet (c ++ [(k2, v)]) k = none := by
  induction c with
  | nil => simp [assocGet, hne]
  | cons hd rest ih =>
    by_cases hk : hd.1 = k
    · simp [assocGet, hk] at h
    · show assocGet ((hd :: rest) ++ [(k2, v)]) k = none
      simp only [List.cons_append, assocGet, hk, if_false]
      exact ih (by simpa [assocGet, hk] using h)

theorem hmInsert_of_none {c : List (List Char × Document)} {k : List Char} (v : Document)
    (h : assocGet c k = none) : hmInsert c k v = c ++ [(k, v)] := by
  simp [hmInsert, h]

theorem hmInsert_length_of_some {c : List (List Char × Document)} {k : List Char}
    (v : Document) (h : (assocGet c k).isSome) :
    (hmInsert c k v).length = c.length := by
  unfold hmInsert
  cases hg : assocGet c k with
  | none => rw [hg] at h; simp at h
  | some d => simp

theorem hmInsert_length (c : List (List Char × Document)) (k : List Char) (v : Document) :
    (hmInsert c k v).length = c.length ∨ (hmInsert c k v).length = c.length + 1 := by
  unfold hmInsert
  cases assocGet c k with
  | none => right; simp
  | some d => left; simp

theorem cacheSet_length_le (c : List (List Char × Document)) (k : List Char) (v : Document)
    (h : c.length ≤ 5) : (cacheSet c k v).length ≤ 5 := by
  simp only [cacheSet]
  by_cases h5 : 5 ≤ c.length
  · rw [if_pos h5]
    have ht : c.tail.length = c.length - 1 := by cases c <;> simp
    rcases hmInsert_length c.tail k v with h1 | h1 <;> omega
  · rw [if_neg h5]
    rcases hmInsert_length c k v with h1 | h1 <;> omega

theorem mem_hmInsert {c : List (List Char × Document)} {k : List Char} {v : Document}
    {e : List Char × Document} (he : e ∈ hmInsert c k v) :
    e = (k, v) ∨ (e ∈ c ∧ ¬(e.1 = k)) := by
  unfold hmInsert at he
  cases hg : assocGet c k with
  | some d =>
    rw [hg] at he
    rcases List.mem_map.mp he with ⟨e2, he2, heq⟩
    by_cases hk : e2.1 = k
    · rw [if_pos hk] at heq
      exact Or.inl heq.symm
    · rw [if_neg hk] at heq
      subst heq
      exact Or.inr ⟨he2, hk⟩
  | none =>
    rw [hg] at he
    rcases List.mem_append.mp he with h | h
    · exact Or.inr ⟨h, assocGet_none_forall hg e h⟩
    · simp at h
      exact Or.inl (by rw [h])

theorem mem_cacheSet {c : List (List Char × Document)} {k : List Char} {v : Document}
    {e : List Char × Document} (he : e ∈ cacheSet c k v) :
    e = (k, v) ∨ (e ∈ c ∧ ¬(e.1 = k)) := by
  simp only [cacheSet] at he
  by_cases h5 : 5 ≤ c.length
  · rw [if_pos h5] at he
    rcases mem_hmInsert he with h | ⟨h1, h2⟩
    · exact Or.inl h
    · exact Or.inr ⟨(List.tail_sublist c).subset h1, h2⟩
  · rw [if_neg h5] at he
    exact mem_hmInsert he

theorem assocGet_append_single (l : List (List Char × Document)) (k0 : List Char)
    (v0 : Document) (k : List Char) :
    assocGet (l ++ [(k0, v0)]) k =
      match assocGet l k with
      | some v => some v
      | none => if k0 = k then some v0 else none := by
  induction l with
  | nil => simp [assocGet]
  | cons hd rest ih =>
    by_cases hk : hd.1 = k
    · simp [assocGet, hk]
    · show assocGet ((hd :: rest) ++ [(k0, v0)]) k = _
      simp only [List.cons_append, assocGet, hk, if_false]
      exact ih

theorem lastSet_cons (k0 : List Char) (v0 : Document) (ops : List (List Char × Document))
    (k : List Char) :
    lastSet ((k0, v0) :: ops) k =
      match lastSet ops k with
      | some v => some v
      | none => if k0 = k then some v0 else none := by
  unfold lastSet
  rw [List.reverse_cons]
  exact assocGet_append_single _ _ _ _

theorem runSets_entry_lastSet (ops : List (List Char × Document)) :
    ∀ c : List (List Char × Document), ∀ e ∈ runSets c ops,
      (lastSet ops e.1 = none ∧ e ∈ c) ∨ lastSet ops e.1 = some e.2 := by
  induction ops with
  | nil =>
    intro c e he
    exact Or.inl ⟨rfl, he⟩
  | cons op rest ih =>
    obtain ⟨k0, v0⟩ := op
    intro c e he
    have he2 : e ∈ runSets (cacheSet c k0 v0) rest := he
    rcases ih _ e he2 with ⟨hnone, hmem⟩ | hsome
    · rcases mem_cacheSet hmem with heq | ⟨hmem2, hne⟩
      · right
        rw [heq]
        show lastSet ((k0, v0) :: rest) k0 = some v0
        rw [lastSet_cons]
        rw [show e.1 = k0 from by rw [heq]] at hnone
        simp [hnone]
      · left
        refine ⟨?_, hmem2⟩
        rw [lastSet_cons, hnone]
        simp only
        rw [if_neg (fun h => hne h.symm)]
    · right
      rw [lastSet_cons, hsome]

theorem runSets_length_le (ops : List (List Char × Document)) :
    ∀ c : List (List Char × Document), c.length ≤ 5 → (runSets c ops).length ≤ 5 := by
  induction ops with
  | nil => intro c hc; exact hc
  | cons op rest ih => intro c hc; exact ih _ (cacheSet_length_le _ _ _ hc)

theorem runSets_length_min (ops : List (List Char × Document)) :
    ∀ c : List (List Char × Document), (ops.map Prod.fst).Nodup →
      (∀ op ∈ ops, assocGet c op.1 = none) → c.length ≤ 5 →
      (runSets c ops).length = min (c.length + ops.length) 5 := by
  induction ops with
  | nil =>
    intro c _ _ hc
    show c.length = min (c.length + 0) 5
    omega
  | cons op rest ih =>
    obtain ⟨k, v⟩ := op
    intro c hnodup hfresh hc
    have hfreshk : assocGet c k = none := hfresh (k, v) (by simp)
    rw [List.map_cons] at hnodup
    have hcons := List.nodup_cons.mp hnodup
    have hknotin : k ∉ rest.map Prod.fst := hcons.1
    have hnodup2 : (rest.map Prod.fst).Nodup := hcons.2
    have hkne : ∀ op2 ∈ rest, ¬(k = op2.1) := by
      intro op2 hop2 hkeq
      exact hknotin (by rw [hkeq]; exact List.mem_map_of_mem _ hop2)
    have hrun : runSets c ((k, v) :: rest) = runSets (cacheSet c k v) rest := rfl
    by_cases h5 : 5 ≤ c.length
    · have hceq : c.length = 5 := Nat.le_antisymm hc h5
      have htail : assocGet c.tail k = none := assocGet_tail_none hfreshk
      have hset : cacheSet c k v = c.tail ++ [(k, v)] := by
        simp only [cacheSet]
        rw [if_pos h5]
        exact hmInsert_of_none v htail
      have htlen : c.tail.length = 4 := by
        cases c with
        | nil => simp at hceq
        | cons hd t =>
          simp only [List.tail_cons]
          simp at hceq
          omega
      have hlen2 : (cacheSet c k v).length = 5 := by
        rw [hset, List.length_append, htlen]
        rfl
      have hfresh2 : ∀ op2 ∈ rest, assocGet (cacheSet c k v) op2.1 = none := by
        intro op2 hop2
        rw [hset]
        exact assocGet_append_single_ne k v
          (assocGet_tail_none (hfresh op2 (by simp [hop2]))) (hkne op2 hop2)
      rw [hrun, ih _ hnodup2 hfresh2 (by omega), hlen2, hceq]
      simp only [List.length_cons]
      omega
    · have hset : cacheSet c k v = c ++ [(k, v)] := by
        simp only [cacheSet]
        rw [if_neg h5]
        exact hmInsert_of_none v hfreshk
      have hlen2 : (cacheSet c k v).length = c.length + 1 := by
        rw [hset, List.length_append]
        rfl
      have hfresh2 : ∀ op2 ∈ rest, assocGet (cacheSet c k v) op2.1 = none := by
        intro op2 hop2
        rw [hset]
        exact assocGet_append_single_ne k v (hfresh op2 (by simp [hop2])) (hkne op2 hop2)
      rw [hrun, ih _ hnodup2 hfresh2 (by omega), hlen2]
      simp only [List.length_cons]
      omega

/-- Claim C4: starting from an empty in-memory document cache, after every
sequence of set operations at most 5 entries remain; after setting 6
documents with pairwise distinct ids exactly 5 entries remain; and every
remaining entry maps its id to the value most recently set for that id. -/
theorem c4_cache_bounded :
    (∀ ops : List (List Char × Document), (runSets [] ops).length ≤ 5) ∧
    (∀ ops : List (List Char × Document), (ops.map Prod.fst).Nodup → ops.length = 6 →
      (runSets [] ops).length = 5) ∧
    (∀ ops : List (List Char × Document), ∀ e ∈ runSets [] ops,
      lastSet ops e.1 = some e.2) := by
  refine ⟨?_, ?_, ?_⟩
  · intro ops
    exact runSets_length_le ops [] (by simp)
  · intro ops hnodup hlen
    rw [runSets_length_min ops [] hnodup (fun op _ => rfl) (by simp), hlen]
    decide
  · intro ops e he
    rcases runSets_entry_lastSet ops [] e he with ⟨_, habs⟩ | h
    · simp at habs
    · exact h

/-- Witness for claim C4 at six concrete set operations with distinct ids:
exactly 5 entries remain and the surviving entry for id "k6" holds the
document set for it. -/
theorem c4_cache_bounded_witness :
    (runSets [] ops6).length = 5 ∧
    lastSet ops6 "k6".toList = some (mkDoc "k6".toList []) :=
  ⟨c4_cache_bounded.2.1 ops6 (by decide) (by decide),
   c4_cache_bounded.2.2 ops6 ("k6".toList, mkDoc "k6".toList []) (by decide)⟩

/-- Claim C9: when the cache holds at least 5 entries, set first removes
the entry first in iteration order (even when the written key is already
present elsewhere), then inserts; consequently updating a cached key whose
entry is not first leaves the cache one entry smaller, and concretely a
5-entry cache ends with 4 entries, the first key evicted and the updated
key freshly mapped. -/
theorem c9_set_evicts_iteration_first :
    (∀ (c : List (List Char × Document)) (k : List Char) (v : Document), 5 ≤ c.length →
      cacheSet c k v = hmInsert c.tail k v) ∧
    (∀ (hd : List Char × Document) (rest : List (List Char × Document))
        (k : List Char) (v : Document),
      5 ≤ (hd :: rest).length → ¬(hd.1 = k) → (assocGet rest k).isSome →
      (cacheSet (hd :: rest) k v).length = rest.length) ∧
    ((cacheSet cache5 "x".toList dX).length = 4 ∧
      assocGet (cacheSet cache5 "x".toList dX) "a".toList = none ∧
      assocGet (cacheSet cache5 "x".toList dX) "x".toList = some dX) := by
  refine ⟨?_, ?_, by decide⟩
  · intro c k v h5
    simp only [cacheSet]
    rw [if_pos h5]
  · intro hd rest k v h5 hne hsome
    have h1 : cacheSet (hd :: rest) k v = hmInsert rest k v := by
      simp only [cacheSet]
      rw [if_pos h5]
      rfl
    rw [h1, hmInsert_length_of_some _ hsome]

/-- Witness for claim C9: on the concrete full cache the set of the already
present key "x" goes through eviction of the head entry followed by the
insert. -/
theorem c9_set_evicts_iteration_first_witness :
    cacheSet cache5 "x".toList dX = hmInsert cache5.tail "x".toList dX :=
  c9_set_evicts_iteration_first.1 cache5 "x".toList dX (by decide)

/-! ## Claim C10: persistent chapter cache round trip -/

theorem asI32_of_lt {n : Nat} (h : n < 2 ^ 31) : asI32 n = (n : Int) := by
  unfold asI32
  have h32 : n % 2 ^ 32 = n := Nat.mod_eq_of_lt (by omega)
  rw [h32, if_pos h]

theorem asUsize_ofNat {n : Nat} (h : n < 2 ^ 64) : asUsize ((n : Nat) : Int) = n := by
  unfold asUsize
  rw [Int.emod_eq_of_lt (by omega) (by exact_mod_cast h)]
  exact Int.toNat_natCast n

theorem asUsize_asI32 {n : Nat} (h : n < 2 ^ 31) : asUsize (asI32 n) = n := by
  rw [asI32_of_lt h]
  exact asUsize_ofNat (by omega)

theorem insertRows_success (rows : List ChapterRow) :
    ∀ t : List ChapterRow, (∀ r ∈ rows, ∀ q ∈ t, ¬(q.id = r.id)) →
      (rows.map ChapterRow.id).Nodup →
      insertRows t rows = (t ++ rows, true) := by
  induction rows with
  | nil => intro t _ _; simp [insertRows]
  | cons r rs ih =>
    intro t hfr hnodup
    rw [List.map_cons] at hnodup
    have hcons := List.nodup_cons.mp hnodup
    have hany : t.any (fun q => q.id = r.id) = false := by
      rw [List.any_eq_false]
      intro q hq
      simpa using hfr r (by simp) q hq
    unfold insertRows
    simp only [hany, Bool.false_eq_true, if_false]
    rw [ih (t ++ [r]) ?_ hcons.2]
    · simp
    · intro r2 hr2 q hq
      rcases List.mem_append.mp hq with hq | hq
      · exact hfr r2 (by simp [hr2]) q hq
      · simp only [List.mem_singleton] at hq
        rw [hq]
        intro heq
        exact hcons.1 (by rw [heq]; exact List.mem_map_of_mem _ hr2)

theorem chapterRowsFrom_map_id (docId : List Char) (chs : List Chapter) :
    ∀ n, (chapterRowsFrom docId n chs).map ChapterRow.id = chs.map Chapter.id := by
  induction chs with
  | nil => intro n; rfl
  | cons ch rest ih => intro n; simp [chapterRowsFrom, mkChapterRow, ih]

theorem chapterRowsFrom_docId (docId : List Char) (chs : List Chapter) :
    ∀ n, ∀ r ∈ chapterRowsFrom docId n chs, r.document_id = docId := by
  induction chs with
  | nil => intro n r hr; simp [chapterRowsFrom] at hr
  | cons ch rest ih =>
    intro n r hr
    rcases List.mem_cons.mp hr with rfl | hr
    · rfl
    · exact ih (n + 1) r hr

theorem chapterRowsFrom_length (docId : List Char) (chs : List Chapter) :
    ∀ n, (chapterRowsFrom docId n chs).length = chs.length := by
  induction chs with
  | nil => intro n; rfl
  | cons ch rest ih => intro n; simp [chapterRowsFrom, ih]

theorem chapterRowsFrom_order_mem (docId : List Char) (chs : List Chapter) :
    ∀ n, ∀ r ∈ chapterRowsFrom docId n chs,
      ∃ m, n ≤ m ∧ m < n + chs.length ∧ r.chapter_order = asI32 m := by
  induction chs with
  | nil => intro n r hr; simp [chapterRowsFrom] at hr
  | cons ch rest ih =>
    intro n r hr
    rcases List.mem_cons.mp hr with rfl | hr
    · exact ⟨n, Nat.le_refl n, by simp, rfl⟩
    · obtain ⟨m, h1, h2, h3⟩ := ih (n + 1) r hr
      refine ⟨m, by omega, ?_, h3⟩
      simp only [List.length_cons]
      omega

theorem chapterRowsFrom_sorted (docId : List Char) (chs : List Chapter) :
    ∀ n, n + chs.length ≤ 2 ^ 31 →
      (chapterRowsFrom docId n chs).Pairwise
        (fun a b => a.chapter_order < b.chapter_order) := by
  induction chs with
  | nil => intro n _; exact List.Pairwise.nil
  | cons ch rest ih =>
    intro n hb
    simp only [List.length_cons] at hb
    refine List.Pairwise.cons ?_ (ih (n + 1) (by omega))
    intro b hb2
    obtain ⟨m, h1, h2, h3⟩ := chapterRowsFrom_order_mem docId rest (n + 1) b hb2
    rw [h3]
    show (mkChapterRow docId n ch).chapter_order < asI32 m
    have hmlt : m < 2 ^ 31 := by omega
    have hnlt : n < 2 ^ 31 := by omega
    rw [show (mkChapterRow docId n ch).chapter_order = asI32 n from rfl,
      asI32_of_lt hnlt, asI32_of_lt hmlt]
    exact_mod_cast (by omega : n < m)

theorem insertRowSorted_of_le (r : ChapterRow) (l : List ChapterRow)
    (h : ∀ q ∈ l, r.chapter_order ≤ q.chapter_order) : insertRowSorted r l = r :: l := by
  cases l with
  | nil => rfl
  | cons q rest =>
    unfold insertRowSorted
    rw [if_pos (h q (by simp))]

theorem sortRows_sorted_id (l : List ChapterRow)
    (h : l.Pairwise (fun a b => a.chapter_order < b.chapter_order)) : sortRows l = l := by
  induction l with
  | nil => rfl
  | cons r rest ih =>
    have hp := List.pairwise_cons.mp h
    unfold sortRows
    rw [ih hp.2]
    exact insertRowSorted_of_le r rest (fun q hq => le_of_lt (hp.1 q hq))

theorem chapterRowsFrom_roundtrip (docId : List Char) (chs : List Chapter) :
    ∀ n, (∀ ch ∈ chs, ch.start_position < 2 ^ 31 ∧ ch.end_position < 2 ^ 31) →
      (chapterRowsFrom docId n chs).map (fun r =>
        ({ id := r.id, title := r.title,
           start_position := asUsize r.start_position,
           end_position := asUsize r.end_position } : Chapter)) = chs := by
  induction chs with
  | nil => intro n _; rfl
  | cons ch rest ih =>
    intro n hfit
    simp only [chapterRowsFrom, List.map_cons]
    have h := hfit ch (by simp)
    rw [ih (n + 1) (fun c hc => hfit c (by simp [hc]))]
    congr 1
    show ({ id := ch.id, title := ch.title,
            start_position := asUsize (asI32 ch.start_position),
            end_position := asUsize (asI32 ch.end_position) } : Chapter) = ch
    rw [asUsize_asI32 h.1, asUsize_asI32 h.2]

/-- Claim C10: the persistent chapter cache stores positions as 32-bit
signed integers and reads them back as usize.  For every chapter list whose
positions fit in a 32-bit signed integer (and whose ids do not collide with
other documents' cached rows), get_cached_chapters after save_chapters
returns the same chapters in saved order, ordered by chapter_order; and for
a chapter whose position is 2 to the 31st the round trip does not preserve
the position, returning it reinterpreted as 2 to the 64th minus 2 to the
31st. -/
theorem c10_chapter_cache_roundtrip :
    (∀ (t : List ChapterRow) (docId : List Char) (chs : List Chapter),
      (∀ ch ∈ chs, ch.start_position < 2 ^ 31 ∧ ch.end_position < 2 ^ 31) →
      (chs.map Chapter.id).Nodup →
      (∀ r ∈ t, ¬(r.document_id = docId) → ∀ ch ∈ chs, ¬(r.id = ch.id)) →
      chs ≠ [] → chs.length ≤ 2 ^ 31 →
      (save_chapters t docId chs).2 = true ∧
      get_cached_chapters (save_chapters t docId chs).1 docId = some chs) ∧
    (get_cached_chapters (save_chapters [] "d".toList [chBig]).1 "d".toList =
      some [{ id := chBig.id, title := chBig.title,
              start_position := 2 ^ 64 - 2 ^ 31,
              end_position := 2 ^ 64 - 2 ^ 31 }] ∧
     ¬(2 ^ 64 - 2 ^ 31 = chBig.start_position)) := by
  constructor
  · intro t docId chs hfit hnodup hnoclash hne hlen
    have hfr : ∀ r ∈ chapterRowsFrom docId 0 chs,
        ∀ q ∈ t.filter (fun s => !(s.document_id = docId : Bool)), ¬(q.id = r.id) := by
      intro r hr q hq
      have hqmem := List.mem_filter.mp hq
      have hqpred : ¬(q.document_id = docId) := by simpa using hqmem.2
      have hrid : r.id ∈ chs.map Chapter.id := by
        rw [← chapterRowsFrom_map_id docId chs 0]
        exact List.mem_map_of_mem _ hr
      obtain ⟨ch, hch, hcheq⟩ := List.mem_map.mp hrid
      intro heq
      exact (hnoclash q hqmem.1 hqpred ch hch) (by rw [heq, hcheq])
    have hnodup2 : ((chapterRowsFrom docId 0 chs).map ChapterRow.id).Nodup := by
      rw [chapterRowsFrom_map_id]
      exact hnodup
    have hins := insertRows_success (chapterRowsFrom docId 0 chs)
      (t.filter (fun s => !(s.document_id = docId : Bool))) hfr hnodup2
    have hsave : save_chapters t docId chs =
        (t.filter (fun s => !(s.document_id = docId : Bool)) ++ chapterRowsFrom docId 0 chs,
          true) := hins
    refine ⟨by rw [hsave], ?_⟩
    rw [hsave]
    show get_cached_chapters _ docId = some chs
    unfold get_cached_chapters
    have hclr : (t.filter (fun s => !(s.document_id = docId : Bool))).filter
        (fun r => (r.document_id = docId : Bool)) = [] := by
      rw [List.filter_eq_nil_iff]
      intro r hr
      have := (List.mem_filter.mp hr).2
      simp only [Bool.not_eq_true'] at this
      simp [this]
    have hkeep : (chapterRowsFrom docId 0 chs).filter
        (fun r => (r.document_id = docId : Bool)) = chapterRowsFrom docId 0 chs := by
      rw [List.filter_eq_self]
      intro r hr
      simpa using chapterRowsFrom_docId docId chs 0 r hr
    rw [List.filter_append, hclr, hkeep, List.nil_append]
    rw [sortRows_sorted_id _ (chapterRowsFrom_sorted docId chs 0 (by omega))]
    rw [if_neg ?_]
    · rw [chapterRowsFrom_roundtrip docId chs 0 hfit]
    · intro hnil
      apply hne
      have := chapterRowsFrom_length docId chs 0
      rw [hnil] at this
      exact List.length_eq_zero.mp this.symm
  · constructor
    · decide
    · decide

/-- Witness for claim C10: a single chapter with small positions saved to
an empty table and read back unchanged. -/
theorem c10_chapter_cache_roundtrip_witness :
    (save_chapters [] "d1".toList [chA]).2 = true ∧
    get_cached_chapters (save_chapters [] "d1".toList [chA]).1 "d1".toList = some [chA] :=
  c10_chapter_cache_roundtrip.1 [] "d1".toList [chA] (by decide) (by decide)
    (by intro r hr; simp at hr) (by decide) (by decide)

/-! ## Claim C1: get_chapters cache coherency -/

/-- Claim C1, as stated, is false: on the concrete state with "d1" in the
library and both cache tiers empty, the get_chapters miss path performs
exactly one parse and populates the persistent chapter cache, but the
in-memory document cache still holds no entry for "d1" afterwards, since
the Rust function never writes it. -/
theorem c1_counterexample :
    (get_chapters parse1 st1 "d1".toList).2.2 = 1 ∧
    ((get_chapters parse1 st1 "d1".toList).2.1.dbChapters.any
      (fun r => r.document_id = "d1".toList)) = true ∧
    cacheGet (get_chapters parse1 st1 "d1".toList).2.1.cacheEntries "d1".toList = none := by
  decide

/-- Claim C1 (amended): a get_chapters request for a document id present in
the library but absent from both cache tiers performs exactly one parse,
returns the parsed chapters, and (when the parsed chapters are non-empty
and their ids collide with no other document's cached rows) populates the
persistent chapter cache with an entry for that id, while the in-memory
document cache is left unchanged and gains no entry; a request for an id
present in the in-memory cache performs zero parses and returns the cached
document's chapters. -/
theorem c1_get_chapters_cache_coherency
    (parse : List Char → Option Document) (st : AppState) (docId : List Char)
    (storedDoc : StoredDoc) (document : Document) (k : ParserKind) :
    (∀ d, cacheGet st.cacheEntries docId = some d →
      get_chapters parse st docId = (.ok d.chapters, st, 0)) ∧
    (cacheGet st.cacheEntries docId = none →
      get_cached_chapters st.dbChapters docId = none →
      st.dbDocuments.find? (fun d => (d.id = docId : Bool)) = some storedDoc →
      dispatch storedDoc.file_path = .ok k →
      parse storedDoc.file_path = some document →
      ¬(document.chapters = []) →
      (document.chapters.map Chapter.id).Nodup →
      (∀ r ∈ st.dbChapters, ¬(r.document_id = docId) →
        ∀ ch ∈ document.chapters, ¬(r.id = ch.id)) →
      (get_chapters parse st docId).2.2 = 1 ∧
      (get_chapters parse st docId).1 = .ok document.chapters ∧
      (get_chapters parse st docId).2.1.cacheEntries = st.cacheEntries ∧
      (∃ r ∈ (get_chapters parse st docId).2.1.dbChapters, r.document_id = docId)) := by
  constructor
  · intro d hd
    unfold get_chapters
    rw [hd]
  · intro h1 h2 h3 h4 h5 h6 h7 h8
    have hrun : get_chapters parse st docId =
        (.ok document.chapters,
         { st with dbChapters := (save_chapters st.dbChapters docId document.chapters).1 },
         1) := by
      simp only [get_chapters, h1, h2, h3, h4, h5]
      rw [if_neg h6]
    have hfr : ∀ r ∈ chapterRowsFrom docId 0 document.chapters,
        ∀ q ∈ st.dbChapters.filter (fun s => !(s.document_id = docId : Bool)),
          ¬(q.id = r.id) := by
      intro r hr q hq
      have hqmem := List.mem_filter.mp hq
      have hqpred : ¬(q.document_id = docId) := by simpa using hqmem.2
      have hrid : r.id ∈ document.chapters.map Chapter.id := by
        rw [← chapterRowsFrom_map_id docId document.chapters 0]
        exact List.mem_map_of_mem _ hr
      obtain ⟨ch, hch, hcheq⟩ := List.mem_map.mp hrid
      intro heq
      exact (h8 q hqmem.1 hqpred ch hch) (by rw [heq, hcheq])
    have hnodup2 : ((chapterRowsFrom docId 0 document.chapters).map ChapterRow.id).Nodup := by
      rw [chapterRowsFrom_map_id]
      exact h7
    have hsave : save_chapters st.dbChapters docId document.chapters =
        (st.dbChapters.filter (fun s => !(s.document_id = docId : Bool)) ++
          chapterRowsFrom docId 0 document.chapters, true) :=
      insertRows_success (chapterRowsFrom docId 0 document.chapters)
        (st.dbChapters.filter (fun s => !(s.document_id = docId : Bool))) hfr hnodup2
    refine ⟨by rw [hrun], by rw [hrun], by rw [hrun], ?_⟩
    rw [hrun]
    show ∃ r ∈ (save_chapters st.dbChapters docId document.chapters).1, r.document_id = docId
    rw [hsave]
    cases hch : document.chapters with
    | nil => exact absurd hch h6
    | cons ch rest =>
      refine ⟨mkChapterRow docId 0 ch, ?_, rfl⟩
      apply List.mem_append_right
      show mkChapterRow docId 0 ch ∈
        mkChapterRow docId 0 ch :: chapterRowsFrom docId 1 rest
      exact List.mem_cons_self _ _

/-- Witness for claim C1: on the concrete states, the warm in-memory cache
request returns the cached chapters with zero parses, and the full-miss
request performs one parse and leaves a persistent chapter-cache entry. -/
theorem c1_get_chapters_cache_coherency_witness :
    get_chapters parse1 stWarm "d1".toList = (.ok doc1.chapters, stWarm, 0) ∧
    (get_chapters parse1 st1 "d1".toList).2.2 = 1 ∧
    (∃ r ∈ (get_chapters parse1 st1 "d1".toList).2.1.dbChapters,
      r.document_id = "d1".toList) :=
  ⟨(c1_get_chapters_cache_coherency parse1 stWarm "d1".toList sd1 doc1 .epub).1
      doc1 (by decide),
   ((c1_get_chapters_cache_coherency parse1 st1 "d1".toList sd1 doc1 .epub).2
      (by decide) (by decide) (by decide) (by rfl) (by decide) (by decide) (by decide)
      (by intro r hr; simp [st1] at hr)).1,
   ((c1_get_chapters_cache_coherency parse1 st1 "d1".toList sd1 doc1 .epub).2
      (by decide) (by decide) (by decide) (by rfl) (by decide) (by decide) (by decide)
      (by intro r hr; simp [st1] at hr)).2.2.2⟩
